import Mathlib

/-!
# Verification of the zipline MeanReversion backtest notebook

Shallow embedding of the in-scope code of the notebook
(`MeanReversion.compute`, `compute_factors`, `before_trading_start`,
`rebalance`, `exec_trades`) together with the external zipline pipeline
utilities (`Factor.rank(method='ordinal')`, `Factor.top`, `Factor.bottom`)
that the notebook invokes, and proofs of the spec's testable properties.

Numbers are embedded as exact rationals (ℚ); the square root in the
standard deviation lives in ℝ via `Real.sqrt`.
-/

namespace MeanReversionBacktest

/-! ## Mean-reversion factor arithmetic

`MeanReversion.compute` does, per asset column of the window `df`:
`out[:] = df.iloc[-1].sub(df.mean()).div(df.std())`, where `df.mean()` is
the arithmetic mean of the column and `df.std()` is the pandas default
sample standard deviation (`ddof=1`, denominator `N - 1`). -/

/-- Arithmetic mean of a list of rationals (pandas `df.mean()` per column).
For the empty list this is `0/0 = 0` in ℚ. -/
def listMean (l : List ℚ) : ℚ := l.sum / l.length

/-- Sample variance with denominator `N - 1` (pandas `df.std()` squared,
default `ddof=1`). For `N ≤ 1` the denominator is `≤ 0` and the value is
degenerate, matching the fact that pandas produces NaN there. -/
def sampleVar (l : List ℚ) : ℚ :=
  (l.map (fun x => (x - listMean l) ^ 2)).sum / ((l.length : ℚ) - 1)

/-- Population variance with denominator `N`: the alternative reading of
"standard deviation" that the code does NOT use (see claim C9). -/
def popVar (l : List ℚ) : ℚ :=
  (l.map (fun x => (x - listMean l) ^ 2)).sum / (l.length : ℚ)

/-- Sample standard deviation, pandas `df.std()` with its default `ddof=1`. -/
noncomputable def sampleStd (l : List ℚ) : ℝ := Real.sqrt ((sampleVar l : ℚ) : ℝ)

/-- Population standard deviation (denominator `N`), for comparison only. -/
noncomputable def popStd (l : List ℚ) : ℝ := Real.sqrt ((popVar l : ℚ) : ℝ)

/-- Per-asset score of `MeanReversion.compute`: the asset's window is one
column `w` of the factor input; the code computes
`(df.iloc[-1] - df.mean()) / df.std()` for that column, i.e.
(latest observation − window mean) / sample standard deviation. -/
noncomputable def meanReversionScore (w : List ℚ) : ℝ :=
  ((w.getLastD 0 - listMean w : ℚ) : ℝ) / sampleStd w

/-- Column `j` of the row-major window matrix handed to `compute`
(rows = the `window_length` trailing days, one entry per asset). -/
def column (m : List (List ℚ)) (j : ℕ) : List ℚ :=
  m.map (fun row => row.getD j 0)

/-- Full-matrix `MeanReversion.compute`: one score per asset,
`out[j] = (df.iloc[-1][j] - mean(col j)) / std(col j)`. Since the last entry
of column `j` is `df.iloc[-1][j]`, this is `meanReversionScore` per column. -/
noncomputable def meanReversionCompute (m : List (List ℚ)) (nAssets : ℕ) : List ℝ :=
  (List.range nAssets).map (fun j => meanReversionScore (column m j))

/-- Modelled from the spec: "compute for each asset the z-score of its most
recent monthly return relative to the mean and standard deviation of all
monthly returns in the window", with "standard deviation" read as the
sample standard deviation (denominator N−1; claim C9 settles this reading). -/
noncomputable def specZScore (w : List ℚ) : ℝ :=
  ((w.getLastD 0 - listMean w : ℚ) : ℝ) / sampleStd w

/-! ## Pipeline ranking and selection

`compute_factors` builds the pipeline columns
`longs = mean_reversion.bottom(N_LONGS)`,
`shorts = mean_reversion.top(N_SHORTS)` and
`ranking = mean_reversion.rank(ascending=False)`.
The external zipline utilities are modelled from their documented
semantics: `rank` uses scipy `rankdata` with the default ordinal method
(ties broken by array position), `rank(ascending=False)` is the ordinal
rank of the negated values, `bottom(K)` keeps ascending rank `≤ K` and
`top(K)` keeps descending rank `≤ K`. -/

/-- Ordinal-rank key comparison used by scipy `rankdata(method='ordinal')`:
compare scores, break ties by array position. `keyLe s i j` says the entry
at position `i` sorts no later than the entry at position `j`. -/
def keyLe (s : List ℚ) (i j : ℕ) : Prop :=
  s.getD i 0 < s.getD j 0 ∨ (s.getD i 0 = s.getD j 0 ∧ i ≤ j)

instance keyLeDec (s : List ℚ) (i j : ℕ) : Decidable (keyLe s i j) := by
  unfold keyLe
  infer_instance

/-- Ascending ordinal rank of position `i`: the number of entries sorting
no later than it (so ranks run from 1 to the universe size). -/
def ascRank (s : List ℚ) (i : ℕ) : ℕ :=
  ((Finset.range s.length).filter (fun j => keyLe s j i)).card

/-- Descending ordinal rank (zipline `rank(ascending=False)`): the ordinal
rank of the negated scores, ties still broken by array position. -/
def descRank (s : List ℚ) (i : ℕ) : ℕ :=
  ascRank (s.map (fun x => -x)) i

/-- zipline `Factor.bottom(K)` membership: positions whose ascending
ordinal rank is at most `K` (the `longs` pipeline column). -/
def bottomIdx (s : List ℚ) (K : ℕ) : Finset ℕ :=
  (Finset.range s.length).filter (fun i => ascRank s i ≤ K)

/-- zipline `Factor.top(K)` membership: positions whose descending ordinal
rank is at most `K` (the `shorts` pipeline column). -/
def topIdx (s : List ℚ) (K : ℕ) : Finset ℕ :=
  (Finset.range s.length).filter (fun i => descRank s i ≤ K)

/-- One row of the per-day factor table produced by the pipeline:
asset id, `longs` flag, `shorts` flag and the `ranking` column. -/
structure FactorRow where
  asset : ℕ
  longF : Bool
  shortF : Bool
  ranking : ℕ
deriving DecidableEq

/-- `compute_factors`: over the screened universe `u` (asset id and
mean-reversion score, in pipeline order) produce the factor table with
`longs = bottom(nLongs)`, `shorts = top(nShorts)` and
`ranking = rank(ascending=False)`. -/
def computeFactors (u : List (ℕ × ℚ)) (nLongs nShorts : ℕ) : List FactorRow :=
  (List.range u.length).map (fun i =>
    { asset := (u.getD i (0, 0)).1
      longF := decide (ascRank (u.map Prod.snd) i ≤ nLongs)
      shortF := decide (descRank (u.map Prod.snd) i ≤ nShorts)
      ranking := descRank (u.map Prod.snd) i })

/-! ## Rebalancing and order submission

`rebalance` reads the cached factor table, takes
`longs = assets[factor_data.longs]`, `shorts = assets[factor_data.shorts]`,
`divest = context.portfolio.positions.keys() - longs.union(shorts)`, and
submits via `exec_trades` targets `0` for divest, `1 / N_LONGS if N_LONGS
else 0` for longs, `-1 / N_SHORTS if N_SHORTS else 0` for shorts. -/

/-- `assets[factor_data.longs]`: the asset ids of the rows whose `longs`
flag is set, in table order. -/
def longAssets (fd : List FactorRow) : List ℕ :=
  (fd.filter (fun r => r.longF)).map (fun r => r.asset)

/-- `assets[factor_data.shorts]`: the asset ids of the rows whose `shorts`
flag is set, in table order. -/
def shortAssets (fd : List FactorRow) : List ℕ :=
  (fd.filter (fun r => r.shortF)).map (fun r => r.asset)

/-- `divest = context.portfolio.positions.keys() - longs.union(shorts)`:
currently held assets minus the union of the long and short sets. -/
def divestSet (fd : List FactorRow) (holdings : Finset ℕ) : Finset ℕ :=
  holdings \ ((longAssets fd).toFinset ∪ (shortAssets fd).toFinset)

/-- `exec_trades(data, assets, target_percent)`: loop over the assets and
call `order_target_percent(asset, target_percent)` exactly for those with
`data.can_trade(asset) and not get_open_orders(asset)`. The result is the
list of (asset, target) orders actually submitted. -/
def execTrades (canTrade openOrders : ℕ → Bool) (assets : List ℕ)
    (targetPercent : ℚ) : List (ℕ × ℚ) :=
  (assets.filter (fun a => canTrade a && !openOrders a)).map
    (fun a => (a, targetPercent))

/-- The long-side target `1 / N_LONGS if N_LONGS else 0`. -/
def longTarget (nLongs : ℕ) : ℚ := if nLongs ≠ 0 then 1 / (nLongs : ℚ) else 0

/-- The short-side target `-1 / N_SHORTS if N_SHORTS else 0`. -/
def shortTarget (nShorts : ℕ) : ℚ := if nShorts ≠ 0 then -1 / (nShorts : ℚ) else 0

/-- `rebalance`: all orders submitted in one invocation — divest to target
0 first, then longs to `longTarget`, then shorts to `shortTarget` (the
divest set, a Python set, is traversed in some order; sorted here). -/
def rebalanceOrders (fd : List FactorRow) (holdings : Finset ℕ)
    (canTrade openOrders : ℕ → Bool) (nLongs nShorts : ℕ) : List (ℕ × ℚ) :=
  execTrades canTrade openOrders ((divestSet fd holdings).sort (· ≤ ·)) 0 ++
  execTrades canTrade openOrders (longAssets fd) (longTarget nLongs) ++
  execTrades canTrade openOrders (shortAssets fd) (shortTarget nShorts)

/-! ## Algorithm state and the statelessness of the factor transform -/

/-- The only algorithm state the in-scope callbacks touch: the per-day
factor table cached as `context.factor_data`. -/
structure AlgoContext where
  factorData : List FactorRow
deriving DecidableEq

/-- `MeanReversion.compute` as a step over the algorithm state: the Python
method writes only the output buffer `out[:]`; it reads nothing from and
writes nothing to any surviving state. -/
noncomputable def meanReversionComputeStep (ctx : AlgoContext)
    (m : List (List ℚ)) (nAssets : ℕ) : List ℝ × AlgoContext :=
  (meanReversionCompute m nAssets, ctx)

/-! ## Exception propagation model

The in-scope functions contain no `try`/`except`: every call into the
engine is modelled as `Except ε`, and the straight-line code merely
sequences them, so any error value returned is exactly one raised by an
underlying call. -/

/-- The fallible engine calls made by `exec_trades`/`rebalance`. -/
structure TradingEnv (ε : Type) where
  canTrade : ℕ → Except ε Bool
  openOrders : ℕ → Except ε Bool
  orderTargetPercent : ℕ → ℚ → Except ε Unit

/-- `exec_trades` with fallible engine calls: `data.can_trade` first,
`get_open_orders` only if tradeable (Python short-circuit `and`), then
`order_target_percent`, then the rest of the loop. -/
def execTradesE {ε : Type} (env : TradingEnv ε) : List ℕ → ℚ → Except ε Unit
  | [], _ => Except.ok ()
  | a :: rest, t =>
      (env.canTrade a).bind (fun ct =>
        (if ct then
          (env.openOrders a).bind (fun oo =>
            if oo then Except.ok () else env.orderTargetPercent a t)
        else Except.ok ()).bind (fun _ => execTradesE env rest t))

/-- `rebalance` with fallible engine calls: the three `exec_trades`
invocations in source order (logging elided as effect-free). -/
def rebalanceE {ε : Type} (env : TradingEnv ε) (fd : List FactorRow)
    (holdings : Finset ℕ) (nLongs nShorts : ℕ) : Except ε Unit :=
  (execTradesE env ((divestSet fd holdings).sort (· ≤ ·)) 0).bind (fun _ =>
  (execTradesE env (longAssets fd) (longTarget nLongs)).bind (fun _ =>
  execTradesE env (shortAssets fd) (shortTarget nShorts)))

/-- The fallible engine calls made by `before_trading_start`. -/
structure DataEnv (ε : Type) where
  pipelineOutput : Except ε (List FactorRow)
  recordFactorData : List FactorRow → Except ε Unit
  dataCurrent : List ℕ → Except ε (List ℚ)
  recordPrices : List ℚ → Except ε Unit

/-- `before_trading_start` with fallible engine calls: run the pipeline,
cache the table on the context, record the ranking, read and record the
current prices. -/
def beforeTradingStartE {ε : Type} (env : DataEnv ε) : Except ε AlgoContext :=
  env.pipelineOutput.bind (fun fd =>
  (env.recordFactorData fd).bind (fun _ =>
  (env.dataCurrent (fd.map (fun r => r.asset))).bind (fun prices =>
  (env.recordPrices prices).bind (fun _ =>
  Except.ok { factorData := fd }))))

/-- An error `e` was raised by one of the engine calls that
`exec_trades env assets t` can make. -/
def raisedByExec {ε : Type} (env : TradingEnv ε) (assets : List ℕ) (t : ℚ)
    (e : ε) : Prop :=
  ∃ a ∈ assets, env.canTrade a = Except.error e ∨
    env.openOrders a = Except.error e ∨
    env.orderTargetPercent a t = Except.error e

/-! ### Basic lemmas about the window statistics -/

lemma sq_sum_nonneg (l : List ℚ) :
    0 ≤ (l.map (fun x => (x - listMean l) ^ 2)).sum := by
  apply List.sum_nonneg
  intro x hx
  simp only [List.mem_map] at hx
  obtain ⟨y, _, rfl⟩ := hx
  positivity

lemma sampleVar_nonneg (l : List ℚ) (h : 2 ≤ l.length) : 0 ≤ sampleVar l := by
  unfold sampleVar
  apply div_nonneg (sq_sum_nonneg l)
  have : (2 : ℚ) ≤ (l.length : ℚ) := by exact_mod_cast h
  linarith

lemma sampleStd_pos (l : List ℚ) (h : 2 ≤ l.length) (hv : sampleVar l ≠ 0) :
    0 < sampleStd l := by
  unfold sampleStd
  apply Real.sqrt_pos.mpr
  have h0 : 0 ≤ sampleVar l := sampleVar_nonneg l h
  have : 0 < sampleVar l := lt_of_le_of_ne h0 (Ne.symm hv)
  exact_mod_cast this

lemma getD_map_range {α : Type} (f : ℕ → α) (d : α) (n j : ℕ) (hj : j < n) :
    ((List.range n).map f).getD j d = f j := by
  rw [List.getD_eq_getElem?_getD, List.getElem?_map, List.getElem?_range hj]
  rfl

/-- C1: for every window matrix, every asset column of length ≥ 2 with
nonzero variance, the score that `MeanReversion.compute` writes for that
asset equals the z-score of the most recent monthly return relative to the
mean and (sample) standard deviation of the window, and that z-score
genuinely inverts the standardisation: score · std = latest − mean. -/
theorem meanReversion_output_is_zscore (m : List (List ℚ)) (nAssets j : ℕ)
    (hj : j < nAssets)
    (hlen : 2 ≤ (column m j).length)
    (hv : sampleVar (column m j) ≠ 0) :
    (meanReversionCompute m nAssets).getD j 0 = specZScore (column m j) ∧
    specZScore (column m j) * sampleStd (column m j)
      = (((column m j).getLastD 0 - listMean (column m j) : ℚ) : ℝ) := by
  constructor
  · unfold meanReversionCompute
    rw [getD_map_range _ _ _ _ hj]
    rfl
  · unfold specZScore
    exact div_mul_cancel₀ _ (sampleStd_pos (column m j) hlen hv).ne'

/-- Witness for C1 on the window matrix with one asset column [1, 2, 3]. -/
theorem meanReversion_output_is_zscore_witness :
    (0 < 1 ∧ 2 ≤ (column [[1], [2], [3]] 0).length ∧
      sampleVar (column [[(1 : ℚ)], [2], [3]] 0) ≠ 0) ∧
    ((meanReversionCompute [[1], [2], [3]] 1).getD 0 0
        = specZScore (column [[1], [2], [3]] 0) ∧
      specZScore (column [[1], [2], [3]] 0) * sampleStd (column [[1], [2], [3]] 0)
        = (((column [[(1 : ℚ)], [2], [3]] 0).getLastD 0
            - listMean (column [[1], [2], [3]] 0) : ℚ) : ℝ)) :=
  ⟨⟨by decide, by decide, by norm_num [sampleVar, listMean, column]⟩,
    meanReversion_output_is_zscore [[1], [2], [3]] 1 0 (by decide) (by decide)
      (by norm_num [sampleVar, listMean, column])⟩

/-- C5: on a window in which every monthly return is the same value, the
standard deviation in the denominator is exactly zero and the unguarded
code still performs the division by it, so the score is the division of
the (zero) numerator by a zero denominator — under the float semantics of
the real program this is NaN/inf, never a meaningful finite value. -/
theorem zero_variance_unguarded_zero_denominator (w : List ℚ) (c : ℚ)
    (hlen : 2 ≤ w.length) (hc : ∀ x ∈ w, x = c) :
    sampleVar w = 0 ∧ sampleStd w = 0 ∧
    meanReversionScore w = ((w.getLastD 0 - listMean w : ℚ) : ℝ) / 0 := by
  have hpos : 0 < w.length := by omega
  have hne : (w.length : ℚ) ≠ 0 := by exact_mod_cast hpos.ne'
  have hmean : listMean w = c := by
    unfold listMean
    rw [List.sum_eq_card_nsmul w c hc, nsmul_eq_mul]
    field_simp
  have hvar : sampleVar w = 0 := by
    unfold sampleVar
    have hz : (w.map (fun x => (x - listMean w) ^ 2)).sum = 0 := by
      apply List.sum_eq_zero
      intro x hx
      simp only [List.mem_map] at hx
      obtain ⟨y, hy, rfl⟩ := hx
      rw [hmean, hc y hy]
      ring
    rw [hz, zero_div]
  have hstd : sampleStd w = 0 := by
    unfold sampleStd
    rw [hvar]
    push_cast
    exact Real.sqrt_zero
  refine ⟨hvar, hstd, ?_⟩
  unfold meanReversionScore
  rw [hstd]

/-- Witness for C5 on the constant window [3, 3]. -/
theorem zero_variance_unguarded_zero_denominator_witness :
    (2 ≤ ([3, 3] : List ℚ).length ∧ ∀ x ∈ ([3, 3] : List ℚ), x = 3) ∧
    (sampleVar [3, 3] = 0 ∧ sampleStd [3, 3] = 0 ∧
      meanReversionScore [3, 3]
        = ((([3, 3] : List ℚ).getLastD 0 - listMean [3, 3] : ℚ) : ℝ) / 0) :=
  ⟨⟨by decide, by decide⟩,
    zero_variance_unguarded_zero_denominator [3, 3] 3 (by decide) (by decide)⟩

/-- C8: the factor transform is stateless and deterministic — its output
depends only on the input window (any two invocations on equal windows
agree, whatever the surrounding state), and the state after the step is
the state before it. -/
theorem meanReversion_stateless_deterministic :
    ∀ (ctx ctx' : AlgoContext) (m : List (List ℚ)) (nAssets : ℕ),
      (meanReversionComputeStep ctx m nAssets).1
        = (meanReversionComputeStep ctx' m nAssets).1 ∧
      (meanReversionComputeStep ctx m nAssets).2 = ctx :=
  fun _ _ _ _ => ⟨rfl, rfl⟩

/-- C9: the denominator of the score is the sample standard deviation with
denominator N−1 (pandas default ddof=1) — the score literally equals
(latest − mean) / sqrt(Σ(x − mean)² / (N − 1)) — and on the window [0, 2]
it differs from the population-standard-deviation reading. -/
theorem std_is_sample_ddof_one :
    (∀ w : List ℚ,
        meanReversionScore w
          = ((w.getLastD 0 - listMean w : ℚ) : ℝ)
            / Real.sqrt ((((w.map (fun x => (x - listMean w) ^ 2)).sum
                / ((w.length : ℚ) - 1) : ℚ) : ℝ))) ∧
    meanReversionScore [0, 2]
      ≠ ((([0, 2] : List ℚ).getLastD 0 - listMean [0, 2] : ℚ) : ℝ)
        / popStd [0, 2] := by
  constructor
  · intro w
    rfl
  · have hm : listMean [0, 2] = 1 := by norm_num [listMean]
    have hsv : sampleVar [0, 2] = 2 := by norm_num [sampleVar, listMean]
    have hpv : popVar [0, 2] = 1 := by norm_num [popVar, listMean]
    have hlast : ([0, 2] : List ℚ).getLastD 0 = 2 := by norm_num [List.getLastD]
    have hL : meanReversionScore [0, 2] = 1 / Real.sqrt 2 := by
      unfold meanReversionScore sampleStd
      rw [hsv, hm, hlast]
      norm_num
    have hR : ((([0, 2] : List ℚ).getLastD 0 - listMean [0, 2] : ℚ) : ℝ)
        / popStd [0, 2] = 1 := by
      unfold popStd
      rw [hpv, hm, hlast]
      norm_num
    rw [hL, hR]
    have h2 : (1 : ℝ) < Real.sqrt 2 := by
      rw [show (1 : ℝ) = Real.sqrt 1 from (Real.sqrt_one).symm]
      exact Real.sqrt_lt_sqrt (by norm_num) (by norm_num)
    have : 1 / Real.sqrt 2 < 1 := by
      rw [div_lt_one (lt_trans one_pos h2)]
      exact h2
    exact this.ne

/-! ### Lemmas about ordinal ranking -/

lemma keyLe_refl (s : List ℚ) (i : ℕ) : keyLe s i i :=
  Or.inr ⟨rfl, le_refl i⟩

lemma keyLe_trans (s : List ℚ) {i j k : ℕ} (h1 : keyLe s i j) (h2 : keyLe s j k) :
    keyLe s i k := by
  rcases h1 with h1 | ⟨e1, l1⟩ <;> rcases h2 with h2 | ⟨e2, l2⟩
  · exact Or.inl (h1.trans h2)
  · exact Or.inl (e2 ▸ h1)
  · exact Or.inl (e1.symm ▸ h2)
  · exact Or.inr ⟨e1.trans e2, l1.trans l2⟩

lemma keyLe_total (s : List ℚ) (i j : ℕ) : keyLe s i j ∨ keyLe s j i := by
  rcases lt_trichotomy (s.getD i 0) (s.getD j 0) with h | h | h
  · exact Or.inl (Or.inl h)
  · rcases le_total i j with hij | hij
    · exact Or.inl (Or.inr ⟨h, hij⟩)
    · exact Or.inr (Or.inr ⟨h.symm, hij⟩)
  · exact Or.inr (Or.inl h)

lemma keyLe_antisymm (s : List ℚ) {i j : ℕ} (h1 : keyLe s i j) (h2 : keyLe s j i) :
    i = j := by
  rcases h1 with h1 | ⟨e1, l1⟩ <;> rcases h2 with h2 | ⟨e2, l2⟩
  · exact absurd h2 (lt_asymm h1)
  · exact absurd h1 (not_lt.mpr (le_of_eq e2))
  · exact absurd h2 (not_lt.mpr (le_of_eq e1))
  · exact le_antisymm l1 l2

lemma ascRank_le_of_keyLe (s : List ℚ) {i j : ℕ} (h : keyLe s i j) :
    ascRank s i ≤ ascRank s j := by
  apply Finset.card_le_card
  intro m hm
  rw [Finset.mem_filter] at hm ⊢
  exact ⟨hm.1, keyLe_trans s hm.2 h⟩

lemma ascRank_lt_of_keyLe (s : List ℚ) {i j : ℕ} (hj : j < s.length)
    (h : keyLe s i j) (hne : i ≠ j) : ascRank s i < ascRank s j := by
  apply Finset.card_lt_card
  rw [Finset.ssubset_iff_of_subset]
  · refine ⟨j, Finset.mem_filter.mpr ⟨Finset.mem_range.mpr hj, keyLe_refl s j⟩, ?_⟩
    intro hmem
    exact hne (keyLe_antisymm s h (Finset.mem_filter.mp hmem).2)
  · intro m hm
    rw [Finset.mem_filter] at hm ⊢
    exact ⟨hm.1, keyLe_trans s hm.2 h⟩

lemma one_le_ascRank (s : List ℚ) {i : ℕ} (hi : i < s.length) :
    1 ≤ ascRank s i :=
  Finset.card_pos.mpr
    ⟨i, Finset.mem_filter.mpr ⟨Finset.mem_range.mpr hi, keyLe_refl s i⟩⟩

lemma ascRank_le_length (s : List ℚ) (i : ℕ) : ascRank s i ≤ s.length := by
  calc ((Finset.range s.length).filter (fun j => keyLe s j i)).card
      ≤ (Finset.range s.length).card := Finset.card_filter_le _ _
    _ = s.length := Finset.card_range _

lemma ascRank_injOn (s : List ℚ) :
    Set.InjOn (ascRank s) (Finset.range s.length) := by
  intro i hi j hj hEq
  by_contra hne
  rcases keyLe_total s i j with h | h
  · exact absurd hEq
      (ne_of_lt (ascRank_lt_of_keyLe s (Finset.mem_range.mp (by exact_mod_cast hj)) h hne))
  · exact absurd hEq.symm
      (ne_of_lt (ascRank_lt_of_keyLe s (Finset.mem_range.mp (by exact_mod_cast hi)) h
        (Ne.symm hne)))

lemma image_ascRank (s : List ℚ) :
    (Finset.range s.length).image (ascRank s) = Finset.Icc 1 s.length := by
  apply Finset.eq_of_subset_of_card_le
  · intro m hm
    obtain ⟨i, hi, rfl⟩ := Finset.mem_image.mp hm
    exact Finset.mem_Icc.mpr
      ⟨one_le_ascRank s (Finset.mem_range.mp hi), ascRank_le_length s i⟩
  · rw [Nat.card_Icc, Finset.card_image_of_injOn (ascRank_injOn s), Finset.card_range]
    omega

lemma card_bottomIdx (s : List ℚ) (K : ℕ) (hK : K ≤ s.length) :
    (bottomIdx s K).card = K := by
  have hinj : Set.InjOn (ascRank s) (bottomIdx s K) :=
    (ascRank_injOn s).mono (by exact_mod_cast Finset.filter_subset _ _)
  have himg : (bottomIdx s K).image (ascRank s) = Finset.Icc 1 K := by
    ext m
    simp only [Finset.mem_image, Finset.mem_Icc]
    constructor
    · rintro ⟨i, hi, rfl⟩
      have hi' := Finset.mem_filter.mp hi
      exact ⟨one_le_ascRank s (Finset.mem_range.mp hi'.1), hi'.2⟩
    · rintro ⟨h1, h2⟩
      have hm : m ∈ Finset.Icc 1 s.length := Finset.mem_Icc.mpr ⟨h1, h2.trans hK⟩
      rw [← image_ascRank s] at hm
      obtain ⟨i, hi, rfl⟩ := Finset.mem_image.mp hm
      exact ⟨i, Finset.mem_filter.mpr ⟨hi, h2⟩, rfl⟩
  have hcard := Finset.card_image_of_injOn hinj
  rw [himg, Nat.card_Icc] at hcard
  omega

lemma topIdx_eq_bottomIdx_neg (s : List ℚ) (K : ℕ) :
    topIdx s K = bottomIdx (s.map (fun x => -x)) K := by
  unfold topIdx bottomIdx descRank
  simp [List.length_map]

lemma card_topIdx (s : List ℚ) (K : ℕ) (hK : K ≤ s.length) :
    (topIdx s K).card = K := by
  rw [topIdx_eq_bottomIdx_neg]
  exact card_bottomIdx _ K (by rwa [List.length_map])

lemma getD_map_neg (s : List ℚ) {i : ℕ} (hi : i < s.length) :
    (s.map (fun x => -x)).getD i 0 = -(s.getD i 0) := by
  rw [List.getD_eq_getElem?_getD, List.getD_eq_getElem?_getD, List.getElem?_map,
    List.getElem?_eq_getElem hi]
  rfl

lemma descRank_eq_card (s : List ℚ) (i : ℕ) :
    descRank s i
      = ((Finset.range s.length).filter
          (fun j => keyLe (s.map (fun x => -x)) j i)).card := by
  unfold descRank ascRank
  rw [List.length_map]

lemma bottom_lt_outside (s : List ℚ) (K : ℕ)
    (hdist : ∀ a < s.length, ∀ b < s.length, s.getD a 0 = s.getD b 0 → a = b)
    {i j : ℕ} (hi : i ∈ bottomIdx s K) (hj : j < s.length)
    (hjn : j ∉ bottomIdx s K) : s.getD i 0 < s.getD j 0 := by
  have hi' := Finset.mem_filter.mp hi
  have hiK : ascRank s i ≤ K := hi'.2
  have hiLen : i < s.length := Finset.mem_range.mp hi'.1
  have hjK : K < ascRank s j := by
    by_contra hcon
    exact hjn (Finset.mem_filter.mpr ⟨Finset.mem_range.mpr hj, by omega⟩)
  have hnk : ¬ keyLe s j i := by
    intro hk
    have := ascRank_le_of_keyLe s hk
    omega
  unfold keyLe at hnk
  push_neg at hnk
  rcases lt_trichotomy (s.getD i 0) (s.getD j 0) with h | h | h
  · exact h
  · have hij : i = j := hdist i hiLen j hj h
    subst hij
    omega
  · exact absurd h (not_lt.mpr hnk.1)

lemma ascRank_add_descRank (s : List ℚ)
    (hdist : ∀ a < s.length, ∀ b < s.length, s.getD a 0 = s.getD b 0 → a = b)
    {i : ℕ} (hi : i < s.length) :
    ascRank s i + descRank s i = s.length + 1 := by
  set A := (Finset.range s.length).filter (fun j => keyLe s j i) with hA
  set B := (Finset.range s.length).filter
    (fun j => keyLe (s.map (fun x => -x)) j i) with hB
  have hval : ∀ j, j < s.length → j ≠ i → (keyLe s j i ↔ s.getD j 0 < s.getD i 0) := by
    intro j hj hne
    unfold keyLe
    constructor
    · rintro (h | ⟨e, _⟩)
      · exact h
      · exact absurd (hdist j hj i hi e) hne
    · exact Or.inl
  have hvalNeg : ∀ j, j < s.length → j ≠ i →
      (keyLe (s.map (fun x => -x)) j i ↔ s.getD i 0 < s.getD j 0) := by
    intro j hj hne
    unfold keyLe
    rw [getD_map_neg s hj, getD_map_neg s hi]
    constructor
    · rintro (h | ⟨e, _⟩)
      · exact neg_lt_neg_iff.mp h
      · exact absurd (hdist j hj i hi (neg_inj.mp e)) hne
    · intro h
      exact Or.inl (neg_lt_neg h)
  have hU : A ∪ B = Finset.range s.length := by
    ext j
    simp only [hA, hB, Finset.mem_union, Finset.mem_filter, Finset.mem_range]
    constructor
    · rintro (⟨h, _⟩ | ⟨h, _⟩) <;> exact h
    · intro hj
      by_cases hji : j = i
      · subst hji
        exact Or.inl ⟨hj, keyLe_refl s j⟩
      · rcases lt_trichotomy (s.getD j 0) (s.getD i 0) with h | h | h
        · exact Or.inl ⟨hj, (hval j hj hji).mpr h⟩
        · exact absurd (hdist j hj i hi h) hji
        · exact Or.inr ⟨hj, (hvalNeg j hj hji).mpr h⟩
  have hI : A ∩ B = {i} := by
    ext j
    simp only [hA, hB, Finset.mem_inter, Finset.mem_filter, Finset.mem_range,
      Finset.mem_singleton]
    constructor
    · rintro ⟨⟨hj, h1⟩, ⟨_, h2⟩⟩
      by_contra hji
      have hlt := (hval j hj hji).mp h1
      have hgt := (hvalNeg j hj hji).mp h2
      exact absurd hgt (lt_asymm hlt)
    · rintro rfl
      exact ⟨⟨hi, keyLe_refl s j⟩, ⟨hi, keyLe_refl (s.map (fun x => -x)) j⟩⟩
  have hcards := Finset.card_union_add_card_inter A B
  rw [hU, hI, Finset.card_range, Finset.card_singleton] at hcards
  have hAr : A.card = ascRank s i := rfl
  have hBr : B.card = descRank s i := (descRank_eq_card s i).symm
  omega

/-- C4 (amended): for score vectors with pairwise distinct scores and
configured sizes with kl + ks ≤ universe size, `bottom(kl)` has exactly kl
elements all scoring strictly below everything outside it, `top(ks)` has
exactly ks elements all scoring strictly above everything outside it, and
the two selections are disjoint. -/
theorem ranking_selection (s : List ℚ) (kl ks : ℕ)
    (hdist : ∀ a < s.length, ∀ b < s.length, s.getD a 0 = s.getD b 0 → a = b)
    (hsum : kl + ks ≤ s.length) :
    (bottomIdx s kl).card = kl ∧ (topIdx s ks).card = ks ∧
    (∀ i ∈ bottomIdx s kl, ∀ j, j < s.length → j ∉ bottomIdx s kl →
      s.getD i 0 < s.getD j 0) ∧
    (∀ i ∈ topIdx s ks, ∀ j, j < s.length → j ∉ topIdx s ks →
      s.getD j 0 < s.getD i 0) ∧
    Disjoint (bottomIdx s kl) (topIdx s ks) := by
  have hdistNeg : ∀ a < (s.map (fun x => -x)).length,
      ∀ b < (s.map (fun x => -x)).length,
      (s.map (fun x => -x)).getD a 0 = (s.map (fun x => -x)).getD b 0 → a = b := by
    intro a ha b hb h
    rw [List.length_map] at ha hb
    rw [getD_map_neg s ha, getD_map_neg s hb] at h
    exact hdist a ha b hb (neg_inj.mp h)
  refine ⟨card_bottomIdx s kl (by omega), card_topIdx s ks (by omega),
    fun i hi j hj hjn => bottom_lt_outside s kl hdist hi hj hjn, ?_, ?_⟩
  · intro i hi j hj hjn
    rw [topIdx_eq_bottomIdx_neg] at hi hjn
    have hiLen : i < s.length := by
      have := Finset.mem_range.mp (Finset.mem_filter.mp hi).1
      rwa [List.length_map] at this
    have := bottom_lt_outside (s.map (fun x => -x)) ks hdistNeg hi
      (by rwa [List.length_map]) hjn
    rw [getD_map_neg s hiLen, getD_map_neg s hj] at this
    exact neg_lt_neg_iff.mp this
  · rw [Finset.disjoint_left]
    intro i hib hit
    have hib' := Finset.mem_filter.mp hib
    have hit' := Finset.mem_filter.mp hit
    have hiLen : i < s.length := Finset.mem_range.mp hib'.1
    have := ascRank_add_descRank s hdist hiLen
    have h1 : ascRank s i ≤ kl := hib'.2
    have h2 : descRank s i ≤ ks := hit'.2
    omega

/-- Witness for C4 (amended) on the distinct score vector [1, 2] with
kl = ks = 1. -/
theorem ranking_selection_witness :
    ((∀ a < ([1, 2] : List ℚ).length, ∀ b < ([1, 2] : List ℚ).length,
        ([1, 2] : List ℚ).getD a 0 = ([1, 2] : List ℚ).getD b 0 → a = b) ∧
      1 + 1 ≤ ([1, 2] : List ℚ).length) ∧
    ((bottomIdx [1, 2] 1).card = 1 ∧ (topIdx [1, 2] 1).card = 1 ∧
      (∀ i ∈ bottomIdx [1, 2] 1, ∀ j, j < ([1, 2] : List ℚ).length →
        j ∉ bottomIdx [1, 2] 1 → ([1, 2] : List ℚ).getD i 0 < ([1, 2] : List ℚ).getD j 0) ∧
      (∀ i ∈ topIdx [1, 2] 1, ∀ j, j < ([1, 2] : List ℚ).length →
        j ∉ topIdx [1, 2] 1 → ([1, 2] : List ℚ).getD j 0 < ([1, 2] : List ℚ).getD i 0) ∧
      Disjoint (bottomIdx [1, 2] 1) (topIdx [1, 2] 1)) :=
  ⟨⟨by decide, by decide⟩, ranking_selection [1, 2] 1 1 (by decide) (by decide)⟩

/-- C4 counterexample: with tied scores the ordinal tie-break (array
position, in the same direction for both ends) puts position 0 into both
`bottom(2)` and `top(2)` of a 4-element universe even though 2 + 2 ≤ 4, so
the claim as stated (disjointness for every score vector) is false. -/
theorem ranking_selection_ties_cex :
    2 + 2 ≤ ([1, 1, 1, 1] : List ℚ).length ∧
    ¬ Disjoint (bottomIdx [1, 1, 1, 1] 2) (topIdx [1, 1, 1, 1] 2) := by
  constructor
  · decide
  · intro h
    have h0b : 0 ∈ bottomIdx [1, 1, 1, 1] 2 := by decide
    have h0t : 0 ∈ topIdx [1, 1, 1, 1] 2 := by decide
    exact Finset.disjoint_left.mp h h0b h0t

/-- C10: the `ranking` pipeline column is the descending ordinal rank: a
strictly higher mean-reversion score gets a strictly smaller rank number,
rank 1 lies in every nonempty `top` (short) selection, and the `ranking`
field produced by `compute_factors` is exactly this descending rank. -/
theorem ranking_column_descending (s : List ℚ) (i j : ℕ)
    (hi : i < s.length) (hj : j < s.length)
    (h : s.getD j 0 < s.getD i 0) :
    descRank s i < descRank s j ∧
    (∀ ks, 1 ≤ ks → descRank s i = 1 → i ∈ topIdx s ks) ∧
    (∀ (u : List (ℕ × ℚ)) (nl ns k : ℕ), k < u.length →
      ((computeFactors u nl ns).getD k ⟨0, false, false, 0⟩).ranking
        = descRank (u.map Prod.snd) k) := by
  refine ⟨?_, ?_, ?_⟩
  · have hne : i ≠ j := by
      intro hEq
      subst hEq
      exact absurd h (lt_irrefl _)
    unfold descRank
    apply ascRank_lt_of_keyLe (s.map (fun x => -x)) (by rwa [List.length_map])
    · exact Or.inl (by rw [getD_map_neg s hi, getD_map_neg s hj]; exact neg_lt_neg h)
    · exact hne
  · intro ks hks hrank
    exact Finset.mem_filter.mpr ⟨Finset.mem_range.mpr hi, by omega⟩
  · intro u nl ns k hk
    unfold computeFactors
    rw [getD_map_range _ _ _ _ hk]

/-- Witness for C10 on the score vector [1, 2] with i = 1, j = 0. -/
theorem ranking_column_descending_witness :
    (1 < ([1, 2] : List ℚ).length ∧ 0 < ([1, 2] : List ℚ).length ∧
      ([1, 2] : List ℚ).getD 0 0 < ([1, 2] : List ℚ).getD 1 0) ∧
    descRank [1, 2] 1 < descRank [1, 2] 0 :=
  ⟨⟨by decide, by decide, by decide⟩,
    (ranking_column_descending [1, 2] 1 0 (by decide) (by decide) (by decide)).1⟩

/-! ### Lemmas about rebalancing and order submission -/

lemma mem_execTrades (ct oo : ℕ → Bool) (assets : List ℕ) (t : ℚ) {a : ℕ}
    (ha : a ∈ assets) (hc : ct a = true) (ho : oo a = false) :
    (a, t) ∈ execTrades ct oo assets t := by
  unfold execTrades
  exact List.mem_map_of_mem _ (List.mem_filter.mpr ⟨ha, by simp [hc, ho]⟩)

lemma execTrades_snd {ct oo : ℕ → Bool} {assets : List ℕ} {t : ℚ} {p : ℕ × ℚ}
    (h : p ∈ execTrades ct oo assets t) : p.2 = t := by
  unfold execTrades at h
  obtain ⟨a, _, rfl⟩ := List.mem_map.mp h
  rfl

/-- C2 counterexample: on a 4-asset universe with tied scores and sizes
2/2 (so 2 + 2 ≤ 4), the pipeline flags asset 10 both long and short, so in
the next rebalancing invocation asset 10 is in two of the three action
sets — the pairwise-disjointness conjunct of the claim fails. -/
theorem rebalance_three_sets_cex :
    10 ∈ (longAssets (computeFactors [(10, 1), (11, 1), (12, 1), (13, 1)] 2 2)).toFinset ∩
      (shortAssets (computeFactors [(10, 1), (11, 1), (12, 1), (13, 1)] 2 2)).toFinset := by
  decide

/-- C2 (amended): the divestment set equals exactly current holdings minus
the union of the long and short sets, and is disjoint from each of them;
the long and short sets themselves are disjoint provided no asset is
flagged both long and short in the factor table (which the tied-scores
counterexample shows is not guaranteed for every score vector). -/
theorem rebalance_divest_exact (fd : List FactorRow) (holdings : Finset ℕ) :
    divestSet fd holdings
      = holdings \ ((longAssets fd).toFinset ∪ (shortAssets fd).toFinset) ∧
    Disjoint (divestSet fd holdings) (longAssets fd).toFinset ∧
    Disjoint (divestSet fd holdings) (shortAssets fd).toFinset ∧
    ((∀ r ∈ fd, ∀ r' ∈ fd, r.asset = r'.asset →
        ¬(r.longF = true ∧ r'.shortF = true)) →
      Disjoint (longAssets fd).toFinset (shortAssets fd).toFinset) := by
  refine ⟨rfl, ?_, ?_, ?_⟩
  · rw [Finset.disjoint_left]
    intro a ha hal
    exact (Finset.mem_sdiff.mp ha).2 (Finset.mem_union_left _ hal)
  · rw [Finset.disjoint_left]
    intro a ha has
    exact (Finset.mem_sdiff.mp ha).2 (Finset.mem_union_right _ has)
  · intro hnone
    rw [Finset.disjoint_left]
    intro a hal has
    rw [List.mem_toFinset] at hal has
    unfold longAssets at hal
    unfold shortAssets at has
    simp only [List.mem_map, List.mem_filter] at hal has
    obtain ⟨r, ⟨hr, hrL⟩, rfl⟩ := hal
    obtain ⟨r', ⟨hr', hrS⟩, ha'⟩ := has
    exact hnone r hr r' hr' ha'.symm ⟨hrL, hrS⟩

/-- Witness for C2 (amended) on a two-row factor table. -/
theorem rebalance_divest_exact_witness :
    Disjoint (longAssets [⟨1, true, false, 2⟩, ⟨2, false, true, 1⟩]).toFinset
      (shortAssets [⟨1, true, false, 2⟩, ⟨2, false, true, 1⟩]).toFinset :=
  (rebalance_divest_exact [⟨1, true, false, 2⟩, ⟨2, false, true, 1⟩] {3}).2.2.2
    (by decide)

/-- C3: each tradeable long-set asset with no pending order is ordered to
target exactly 1/kl (shorts to −1/ks, divested assets to 0); every order
carries one of the three targets; and with a side size configured to 0 the
pipeline flags no asset for that side, so no order is requested for it. -/
theorem rebalance_equal_weights (fd : List FactorRow) (holdings : Finset ℕ)
    (ct oo : ℕ → Bool) (kl ks : ℕ) :
    (∀ a ∈ longAssets fd, ct a = true → oo a = false → kl ≠ 0 →
      (a, (1 : ℚ) / kl) ∈ rebalanceOrders fd holdings ct oo kl ks) ∧
    (∀ a ∈ shortAssets fd, ct a = true → oo a = false → ks ≠ 0 →
      (a, (-1 : ℚ) / ks) ∈ rebalanceOrders fd holdings ct oo kl ks) ∧
    (∀ a ∈ divestSet fd holdings, ct a = true → oo a = false →
      (a, (0 : ℚ)) ∈ rebalanceOrders fd holdings ct oo kl ks) ∧
    (∀ p ∈ rebalanceOrders fd holdings ct oo kl ks,
      p.2 = 0 ∨ p.2 = longTarget kl ∨ p.2 = shortTarget ks) ∧
    (∀ (u : List (ℕ × ℚ)) (ns : ℕ), longAssets (computeFactors u 0 ns) = []) ∧
    (∀ (u : List (ℕ × ℚ)) (nl : ℕ), shortAssets (computeFactors u nl 0) = []) := by
  refine ⟨?_, ?_, ?_, ?_, ?_, ?_⟩
  · intro a ha hc ho hkl
    have htarget : longTarget kl = (1 : ℚ) / kl := by
      unfold longTarget
      rw [if_pos hkl]
    rw [← htarget]
    unfold rebalanceOrders
    simp only [List.mem_append]
    exact Or.inl (Or.inr (mem_execTrades ct oo (longAssets fd) (longTarget kl) ha hc ho))
  · intro a ha hc ho hks
    have htarget : shortTarget ks = (-1 : ℚ) / ks := by
      unfold shortTarget
      rw [if_pos hks]
    rw [← htarget]
    unfold rebalanceOrders
    simp only [List.mem_append]
    exact Or.inr (mem_execTrades ct oo (shortAssets fd) (shortTarget ks) ha hc ho)
  · intro a ha hc ho
    have ha' : a ∈ (divestSet fd holdings).sort (· ≤ ·) :=
      (Finset.mem_sort _).mpr ha
    have hmem := mem_execTrades ct oo ((divestSet fd holdings).sort (· ≤ ·)) 0 ha' hc ho
    unfold rebalanceOrders
    simp only [List.mem_append]
    exact Or.inl (Or.inl hmem)
  · intro p hp
    unfold rebalanceOrders at hp
    simp only [List.mem_append] at hp
    rcases hp with (hp | hp) | hp
    · exact Or.inl (execTrades_snd hp)
    · exact Or.inr (Or.inl (execTrades_snd hp))
    · exact Or.inr (Or.inr (execTrades_snd hp))
  · intro u ns
    unfold longAssets
    have hnil : (computeFactors u 0 ns).filter (fun r => r.longF) = [] := by
      rw [List.filter_eq_nil_iff]
      intro r hr
      unfold computeFactors at hr
      obtain ⟨i, hi, rfl⟩ := List.mem_map.mp hr
      have hiLen : i < (u.map Prod.snd).length := by
        rw [List.length_map]
        exact List.mem_range.mp hi
      have := one_le_ascRank (u.map Prod.snd) hiLen
      simp only [decide_eq_true_eq]
      omega
    rw [hnil]
    rfl
  · intro u nl
    unfold shortAssets
    have hnil : (computeFactors u nl 0).filter (fun r => r.shortF) = [] := by
      rw [List.filter_eq_nil_iff]
      intro r hr
      unfold computeFactors at hr
      obtain ⟨i, hi, rfl⟩ := List.mem_map.mp hr
      have hiLen : i < (u.map Prod.snd).length := by
        rw [List.length_map]
        exact List.mem_range.mp hi
      have h1 : 1 ≤ descRank (u.map Prod.snd) i := by
        unfold descRank
        exact one_le_ascRank _ (by rwa [List.length_map])
      simp only [decide_eq_true_eq]
      omega
    rw [hnil]
    rfl

/-- Witness for C3: the single flagged long asset 1 is ordered to 1/1. -/
theorem rebalance_equal_weights_witness :
    ((1 : ℕ), (1 : ℚ) / ((1 : ℕ) : ℚ)) ∈
      rebalanceOrders [⟨1, true, false, 1⟩] ∅ (fun _ => true) (fun _ => false) 1 1 :=
  (rebalance_equal_weights [⟨1, true, false, 1⟩] ∅ (fun _ => true)
    (fun _ => false) 1 1).1 1 (by decide) rfl rfl (by decide)

/-- C6: an order is submitted by `exec_trades` only for an asset that was
in the requested collection, is currently tradeable and has no pending
open order, and the submitted target is the requested one. -/
theorem exec_trades_guard (ct oo : ℕ → Bool) (assets : List ℕ) (t : ℚ)
    (a : ℕ) (t' : ℚ) (h : (a, t') ∈ execTrades ct oo assets t) :
    a ∈ assets ∧ ct a = true ∧ oo a = false ∧ t' = t := by
  unfold execTrades at h
  obtain ⟨b, hb, heq⟩ := List.mem_map.mp h
  obtain ⟨hmem, hpred⟩ := List.mem_filter.mp hb
  cases heq
  rw [Bool.and_eq_true, Bool.not_eq_true'] at hpred
  exact ⟨hmem, hpred.1, hpred.2, rfl⟩

/-- Witness for C6 at a singleton asset list. -/
theorem exec_trades_guard_witness :
    (5 ∈ [5] ∧ (fun _ : ℕ => true) 5 = true ∧ (fun _ : ℕ => false) 5 = false ∧
      (1 : ℚ) = 1) :=
  exec_trades_guard (fun _ => true) (fun _ => false) [5] 1 5 1 (by decide)

/-! ### Lemmas about error propagation -/

lemma raisedByExec_cons {ε : Type} {env : TradingEnv ε} {a : ℕ} {rest : List ℕ}
    {t : ℚ} {e : ε} (h : raisedByExec env rest t e) :
    raisedByExec env (a :: rest) t e := by
  obtain ⟨b, hb, hr⟩ := h
  exact ⟨b, List.mem_cons_of_mem a hb, hr⟩

lemma execTradesE_ok_or_raised {ε : Type} (env : TradingEnv ε)
    (assets : List ℕ) (t : ℚ) :
    execTradesE env assets t = Except.ok () ∨
      ∃ e, execTradesE env assets t = Except.error e ∧ raisedByExec env assets t e := by
  induction assets with
  | nil => exact Or.inl rfl
  | cons a rest ih =>
    cases hct : env.canTrade a with
    | error e =>
      refine Or.inr ⟨e, ?_, ⟨a, List.mem_cons_self a rest, Or.inl hct⟩⟩
      simp [execTradesE, hct, Except.bind]
    | ok ct =>
      cases ct with
      | false =>
        have hstep : execTradesE env (a :: rest) t = execTradesE env rest t := by
          simp [execTradesE, hct, Except.bind]
        rcases ih with hok | ⟨e, he, hr⟩
        · exact Or.inl (hstep.trans hok)
        · exact Or.inr ⟨e, hstep.trans he, raisedByExec_cons hr⟩
      | true =>
        cases hoo : env.openOrders a with
        | error e =>
          refine Or.inr ⟨e, ?_, ⟨a, List.mem_cons_self a rest, Or.inr (Or.inl hoo)⟩⟩
          simp [execTradesE, hct, hoo, Except.bind]
        | ok oo =>
          cases oo with
          | true =>
            have hstep : execTradesE env (a :: rest) t = execTradesE env rest t := by
              simp [execTradesE, hct, hoo, Except.bind]
            rcases ih with hok | ⟨e, he, hr⟩
            · exact Or.inl (hstep.trans hok)
            · exact Or.inr ⟨e, hstep.trans he, raisedByExec_cons hr⟩
          | false =>
            cases hord : env.orderTargetPercent a t with
            | error e =>
              refine Or.inr ⟨e, ?_, ⟨a, List.mem_cons_self a rest,
                Or.inr (Or.inr hord)⟩⟩
              simp [execTradesE, hct, hoo, hord, Except.bind]
            | ok u =>
              have hstep : execTradesE env (a :: rest) t = execTradesE env rest t := by
                simp [execTradesE, hct, hoo, hord, Except.bind]
              rcases ih with hok | ⟨e, he, hr⟩
              · exact Or.inl (hstep.trans hok)
              · exact Or.inr ⟨e, hstep.trans he, raisedByExec_cons hr⟩

lemma exceptBind_ok {ε α β : Type} (a : α) (f : α → Except ε β) :
    (Except.ok a : Except ε α).bind f = f a := rfl

lemma exceptBind_error {ε α β : Type} (e : ε) (f : α → Except ε β) :
    (Except.error e : Except ε α).bind f = Except.error e := rfl

lemma rebalanceE_ok_or_raised {ε : Type} (env : TradingEnv ε)
    (fd : List FactorRow) (holdings : Finset ℕ) (nLongs nShorts : ℕ) :
    rebalanceE env fd holdings nLongs nShorts = Except.ok () ∨
      ∃ e, rebalanceE env fd holdings nLongs nShorts = Except.error e ∧
        (raisedByExec env ((divestSet fd holdings).sort (· ≤ ·)) 0 e ∨
         raisedByExec env (longAssets fd) (longTarget nLongs) e ∨
         raisedByExec env (shortAssets fd) (shortTarget nShorts) e) := by
  unfold rebalanceE
  rcases execTradesE_ok_or_raised env ((divestSet fd holdings).sort (· ≤ ·)) 0 with
    h1 | ⟨e, he, hr⟩
  · rw [h1, exceptBind_ok]
    rcases execTradesE_ok_or_raised env (longAssets fd) (longTarget nLongs) with
      h2 | ⟨e, he, hr⟩
    · rw [h2, exceptBind_ok]
      rcases execTradesE_ok_or_raised env (shortAssets fd) (shortTarget nShorts) with
        h3 | ⟨e, he, hr⟩
      · exact Or.inl h3
      · exact Or.inr ⟨e, he, Or.inr (Or.inr hr)⟩
    · refine Or.inr ⟨e, ?_, Or.inr (Or.inl hr)⟩
      rw [he, exceptBind_error]
  · refine Or.inr ⟨e, ?_, Or.inl hr⟩
    rw [he, exceptBind_error]

lemma beforeTradingStartE_ok_or_raised {ε : Type} (env : DataEnv ε) :
    (∃ ctx, beforeTradingStartE env = Except.ok ctx) ∨
      ∃ e, beforeTradingStartE env = Except.error e ∧
        (env.pipelineOutput = Except.error e ∨
         ∃ fd, env.pipelineOutput = Except.ok fd ∧
           (env.recordFactorData fd = Except.error e ∨
            env.dataCurrent (fd.map (fun r => r.asset)) = Except.error e ∨
            ∃ p, env.dataCurrent (fd.map (fun r => r.asset)) = Except.ok p ∧
              env.recordPrices p = Except.error e)) := by
  unfold beforeTradingStartE
  cases hp : env.pipelineOutput with
  | error e => exact Or.inr ⟨e, rfl, Or.inl rfl⟩
  | ok fd =>
    rw [exceptBind_ok]
    cases hr : env.recordFactorData fd with
    | error e => exact Or.inr ⟨e, rfl, Or.inr ⟨fd, rfl, Or.inl hr⟩⟩
    | ok u =>
      rw [exceptBind_ok]
      cases hd : env.dataCurrent (fd.map (fun r => r.asset)) with
      | error e => exact Or.inr ⟨e, rfl, Or.inr ⟨fd, rfl, Or.inr (Or.inl hd)⟩⟩
      | ok prices =>
        rw [exceptBind_ok]
        cases hrp : env.recordPrices prices with
        | error e =>
          exact Or.inr ⟨e, rfl, Or.inr ⟨fd, rfl, Or.inr (Or.inr ⟨prices, hd, hrp⟩)⟩⟩
        | ok v => exact Or.inl ⟨{ factorData := fd }, rfl⟩

/-- C7: no exception is caught, retried, or translated in the in-scope
code — each of `exec_trades`, `rebalance` and `before_trading_start`
either succeeds or returns, unchanged, exactly an error value raised by
one of the underlying order-submission or data-access calls. -/
theorem error_propagation_unchanged :
    (∀ (ε : Type) (env : TradingEnv ε) (assets : List ℕ) (t : ℚ),
      execTradesE env assets t = Except.ok () ∨
        ∃ e, execTradesE env assets t = Except.error e ∧
          raisedByExec env assets t e) ∧
    (∀ (ε : Type) (env : TradingEnv ε) (fd : List FactorRow)
        (holdings : Finset ℕ) (nLongs nShorts : ℕ),
      rebalanceE env fd holdings nLongs nShorts = Except.ok () ∨
        ∃ e, rebalanceE env fd holdings nLongs nShorts = Except.error e ∧
          (raisedByExec env ((divestSet fd holdings).sort (· ≤ ·)) 0 e ∨
           raisedByExec env (longAssets fd) (longTarget nLongs) e ∨
           raisedByExec env (shortAssets fd) (shortTarget nShorts) e)) ∧
    (∀ (ε : Type) (env : DataEnv ε),
      (∃ ctx, beforeTradingStartE env = Except.ok ctx) ∨
        ∃ e, beforeTradingStartE env = Except.error e ∧
          (env.pipelineOutput = Except.error e ∨
           ∃ fd, env.pipelineOutput = Except.ok fd ∧
             (env.recordFactorData fd = Except.error e ∨
              env.dataCurrent (fd.map (fun r => r.asset)) = Except.error e ∨
              ∃ p, env.dataCurrent (fd.map (fun r => r.asset)) = Except.ok p ∧
                env.recordPrices p = Except.error e))) :=
  ⟨fun _ env assets t => execTradesE_ok_or_raised env assets t,
   fun _ env fd holdings nl ns => rebalanceE_ok_or_raised env fd holdings nl ns,
   fun _ env => beforeTradingStartE_ok_or_raised env⟩

end MeanReversionBacktest
